import Mathlib

/-!
Verification of the hierarchical category taxonomy and tree-rendering engine
of the DLCitations repository (src/main.py, src/abbrev.py).

Python strings are embedded as `List Char`; Python's `str.split("::")`,
`"::".join(...)`, `str.startswith`, and `str.count("::")` are embedded as
the structurally recursive functions `splitDC`, `joinDC`, `List.isPrefixOf`
and `countDC` below.  Fallible Python code (raising `KeyError` /
`IndexError`) is embedded with `Except PyErr` or explicit error components.
-/

/-- Embedding of a Python string as its character list. -/
abbrev PyStr := List Char

/-- Embedding of Python `s.split("::")` (split on the two-character
delimiter `::`, leftmost-first, keeping empty pieces). -/
def splitDC : List Char → List (List Char)
  | [] => [[]]
  | ':' :: ':' :: rest => [] :: splitDC rest
  | c :: rest =>
    match splitDC rest with
    | s :: ss => (c :: s) :: ss
    | [] => [[c]]

/-- Embedding of Python `"::".join(parts)`. -/
def joinDC : List (List Char) → List Char
  | [] => []
  | [s] => s
  | s :: ss => s ++ ':' :: ':' :: joinDC ss

/-- Embedding of Python `s.count("::")` (non-overlapping occurrences). -/
def countDC : List Char → Nat
  | ':' :: ':' :: rest => countDC rest + 1
  | _ :: rest => countDC rest
  | [] => 0

/-- Embedding of Python `k.split("::")[-1]` (the last segment of a path). -/
def lastSeg (k : PyStr) : PyStr := (splitDC k).getLastD []

/-- The abbreviation table `ABBREV_MAP` of src/abbrev.py, as an association
list from short code to canonical segment name (the forward direction of
the bidict, which is the only direction the code reads via `.get`). -/
def ABBREV_MAP : List (PyStr × PyStr) :=
  [ ("aug".toList, "augmentations".toList)
  , ("reg".toList, "regularization".toList)
  , ("con".toList, "consistency".toList)
  , ("arch".toList, "architectures".toList)
  , ("act".toList, "activations".toList)
  , ("norm".toList, "normalizations".toList)
  , ("tr".toList, "transformers".toList)
  , ("cl".toList, "contrastive learning".toList)
  , ("kd".toList, "knowledge-distillation".toList)
  , ("wsl".toList, "weakly-supervised learning".toList)
  , ("ssl".toList, "semi-supervised learning".toList)
  , ("pseudo".toList, "pseudo-labeling".toList)
  , ("usl".toList, "unsupervised learning".toList)
  , ("tl".toList, "transfer learning".toList)
  , ("xsl".toList, "x-shot learning".toList)
  , ("fsl".toList, "few-shot learning".toList)
  , ("osl".toList, "one-shot learning".toList)
  , ("zsl".toList, "zero-shot learning".toList)
  , ("ft".toList, "fine-tuning".toList)
  , ("od".toList, "detection".toList)
  , ("det".toList, "detectors".toList)
  , ("sod".toList, "salient object detection".toList)
  , ("seg".toList, "segmentation".toList)
  , ("nas".toList, "neural architecture search".toList)
  , ("comp".toList, "compression".toList)
  , ("mob".toList, "mobile vision".toList)
  , ("gan".toList, "generative adversarial networks".toList)
  , ("adv".toList, "adversarial".toList)
  , ("ae".toList, "autoencoders".toList)
  , ("vb".toList, "variational bayes".toList)
  , ("opt".toList, "optimization".toList)
  , ("hyp".toList, "hyperparameter".toList)
  , ("da".toList, "domain adaptation".toList)
  , ("rec".toList, "recognition".toList)
  , ("ner".toList, "perception and the visual cortex".toList)
  , ("de".toList, "differential evolution".toList)
  , ("llvp".toList, "low-level visual processing".toList)
  , ("stat".toList, "statistics".toList) ]

/-- Embedding of Python `ABBREV_MAP.get(k, k)`. -/
def abbrevGet (k : PyStr) : PyStr :=
  match ABBREV_MAP.lookup k with
  | some v => v
  | none => k

/-- Segment-wise canonicalization
`"::".join([ABBREV_MAP.get(_k, _k) for _k in k.split("::")])` used by
`CitationsMap._check_key` (src/main.py line 87) and `IterBibTex.__iter__`
(src/main.py line 73). -/
def canonicalize (k : PyStr) : PyStr :=
  joinDC ((splitDC k).map abbrevGet)

/-- A cited item (the `CitedItem` namedtuple of src/main.py). -/
structure CitedItem where
  id : PyStr
  title : PyStr
  location : List PyStr
deriving DecidableEq

/-- Embedding of `CitedItem.to_latex` (src/main.py lines 37-38). -/
def CitedItem.to_latex (it : CitedItem) : PyStr :=
  "\\item ".toList ++ it.title ++ " ".toList ++ "\\cite\x7b".toList ++ it.id ++ "\x7d ".toList

/-- Errors raised by the embedded code.  `unknownCategory k keys` is the
`KeyError(f"input key '{k}' not one of: [...]")` raised by `_check_key`,
whose message carries the full declared key list; `keyError k` is a plain
Python `KeyError(k)` from a dict subscript; `indexError i` is the
`IndexError` from a tuple subscript out of range. -/
inductive PyErr where
  | unknownCategory (key : PyStr) (validKeys : List PyStr)
  | keyError (key : PyStr)
  | indexError (idx : Nat)
deriving DecidableEq

instance instDecEqExcept {ε α : Type} [DecidableEq ε] [DecidableEq α] : DecidableEq (Except ε α) :=
  fun a b =>
    match a, b with
    | Except.ok x, Except.ok y => decidable_of_iff (x = y) (by simp)
    | Except.error x, Except.error y => decidable_of_iff (x = y) (by simp)
    | Except.ok _, Except.error _ => isFalse (by simp)
    | Except.error _, Except.ok _ => isFalse (by simp)

/-- Embedding of `OrderedSet.add`: append if not already a member
(first-seen order, identity by structural equality). -/
def osAdd (s : List CitedItem) (x : CitedItem) : List CitedItem :=
  if x ∈ s then s else s ++ [x]

/-- The `CitationsMap` state: the private dict `self.__d`, as an
association list from declared key to its insertion-ordered bucket.
The list order is the dict insertion order. -/
structure CitationsMap where
  d : List (PyStr × List CitedItem)
deriving DecidableEq

/-- Embedding of `CitationsMap.__init__`: one empty bucket per allowed key;
a repeated key re-assigns the same (empty) bucket, keeping its first
position, exactly as a Python dict does. -/
def CitationsMap.init (allowed_keys : List PyStr) : CitationsMap :=
  ⟨allowed_keys.foldl (fun acc k => if (acc.map Prod.fst).contains k then acc else acc ++ [(k, [])]) []⟩

/-- Embedding of `CitationsMap.toc` (src/main.py lines 114-115): the keys
in insertion order. -/
def CitationsMap.toc (m : CitationsMap) : List PyStr :=
  m.d.map Prod.fst

/-- First-occurrence association lookup (Python dict subscript access). -/
def assocFind (d : List (PyStr × List CitedItem)) (k : PyStr) : Option (List CitedItem) :=
  match d with
  | [] => none
  | (k', v) :: rest => if k' = k then some v else assocFind rest k

/-- Update the bucket of the first occurrence of a key (Python dict entry
mutation). -/
def assocUpdate (d : List (PyStr × List CitedItem)) (k : PyStr) (f : List CitedItem → List CitedItem) :
    List (PyStr × List CitedItem) :=
  match d with
  | [] => []
  | (k', v) :: rest => if k' = k then (k', f v) :: rest else (k', v) :: assocUpdate rest k f

/-- Embedding of `CitationsMap._check_key` (src/main.py lines 86-92):
canonicalize segment-wise; succeed if the result is an exact key; succeed
if some declared key has it as a raw string prefix; otherwise raise a
`KeyError` enumerating all declared keys. -/
def CitationsMap.check_key (m : CitationsMap) (k : PyStr) : Except PyErr PyStr :=
  let k' := canonicalize k
  if k' ∈ m.toc then Except.ok k'
  else if m.toc.any (fun key => k'.isPrefixOf key) then Except.ok k'
  else Except.error (PyErr.unknownCategory k' m.toc)

/-- Embedding of `CitationsMap.__add` (src/main.py lines 95-97):
`_check_key` then `self.__d[__k].add(cited_item)`; the dict subscript
raises a plain `KeyError` when `_check_key` returned a non-stored
(prefix-matched) key. -/
def CitationsMap.addOne (m : CitationsMap) (k : PyStr) (item : CitedItem) : Except PyErr CitationsMap :=
  match m.check_key k with
  | Except.error e => Except.error e
  | Except.ok k' =>
    match assocFind m.d k' with
    | some _ => Except.ok ⟨assocUpdate m.d k' (fun b => osAdd b item)⟩
    | none => Except.error (PyErr.keyError k')

/-- Embedding of the loop of `CitationsMap.add` (src/main.py lines 99-101):
process the location paths in order; on the first failure stop, keeping the
state mutated so far (the raised exception aborts the loop, it does not
roll back earlier insertions). -/
def CitationsMap.addLocs (m : CitationsMap) (item : CitedItem) : List PyStr → CitationsMap × Option PyErr
  | [] => (m, none)
  | l :: ls =>
    match m.addOne l item with
    | Except.ok m' => m'.addLocs item ls
    | Except.error e => (m, some e)

/-- Embedding of `CitationsMap.add` (src/main.py lines 99-101). -/
def CitationsMap.add (m : CitationsMap) (item : CitedItem) : CitationsMap × Option PyErr :=
  m.addLocs item item.location

/-- The multilevel union loop of `CitationsMap.get` (src/main.py lines
108-112): union, in declared-key order, the buckets of every declared key
having `k` as a raw string prefix, deduplicating with first-seen order. -/
def CitationsMap.getML (m : CitationsMap) (k : PyStr) : List CitedItem :=
  (m.toc.filter (fun x => k.isPrefixOf x)).foldl
    (fun v kk => ((assocFind m.d kk).getD []).foldl osAdd v) []

/-- Embedding of `CitationsMap.get` (src/main.py lines 103-112). -/
def CitationsMap.get (m : CitationsMap) (k : PyStr) (mlvl : Bool) (skip_check : Bool) :
    Except PyErr (List CitedItem) :=
  let kr : Except PyErr PyStr := if skip_check then Except.ok k else m.check_key k
  match kr with
  | Except.error e => Except.error e
  | Except.ok k' =>
    if !mlvl then
      match assocFind m.d k' with
      | some b => Except.ok b
      | none => Except.error (PyErr.keyError k')
    else Except.ok (m.getML k')

/-- The taxonomy description consumed by `CitationsMap.from_json`
(src/main.py lines 117-133): a nested JSON mapping whose entries are either
`key: []` (a leaf, `consLeaf`) or `key: {nested mapping}` (an internal
node, `consNode`), in mapping iteration order. -/
inductive DescEntries where
  | nil : DescEntries
  | consLeaf (k : PyStr) (rest : DescEntries) : DescEntries
  | consNode (k : PyStr) (children : DescEntries) (rest : DescEntries) : DescEntries
deriving DecidableEq

/-- Embedding of the `inner` traversal of `CitationsMap.from_json`
(src/main.py lines 122-132): the prefix path of an internal node is
appended on entering its mapping, then its entries are visited in order;
a leaf entry appends its full joined path. -/
def nodePaths (p : List PyStr) : DescEntries → List PyStr
  | DescEntries.nil => []
  | DescEntries.consLeaf k rest => joinDC (p ++ [k]) :: nodePaths p rest
  | DescEntries.consNode k c rest =>
    joinDC (p ++ [k]) :: (nodePaths (p ++ [k]) c ++ nodePaths p rest)

/-- Embedding of `CitationsMap.from_json`: build the map from the traversal
output (the file reading and JSON parsing are outside the core). -/
def CitationsMap.from_json (desc : DescEntries) : CitationsMap :=
  CitationsMap.init (nodePaths [] desc)

/-- The entry list of a description level, for stating occurrence
properties: a leaf entry is `(k, none)`, an internal entry is
`(k, some children)`. -/
def DescEntries.entries : DescEntries → List (PyStr × Option DescEntries)
  | DescEntries.nil => []
  | DescEntries.consLeaf k r => (k, none) :: r.entries
  | DescEntries.consNode k c r => (k, some c) :: r.entries

/-- The nested structure built by `make_sections` inside `fill_tex_body`
(src/main.py lines 149-155): a dict from key to sub-structure (`consNode`)
or `None` (`consLeaf`), in insertion order. -/
inductive SecForest where
  | nil : SecForest
  | consLeaf (k : PyStr) (rest : SecForest) : SecForest
  | consNode (k : PyStr) (children : SecForest) (rest : SecForest) : SecForest
deriving DecidableEq

/-- Build a `SecForest` from an ordered entry list. -/
def forestOf : List (PyStr × Option SecForest) → SecForest
  | [] => SecForest.nil
  | (k, none) :: r => SecForest.consLeaf k (forestOf r)
  | (k, some c) :: r => SecForest.consNode k c (forestOf r)

/-- Embedding of `make_sections` (src/main.py lines 149-155) with an
explicit recursion budget.  Every recursive call goes to a key of `toc`
that is strictly longer than its caller's key, so a chain of calls visits
strictly more and more of the finitely many keys: a budget of
`toc.length + 1` is never exhausted and the fuel-0 branch is unreachable
from `make_sections` below. -/
def make_sectionsAux (toc : List PyStr) : Nat → PyStr → Option SecForest
  | 0, _ => none
  | fuel + 1, key =>
    let subs := toc.filter (fun k => key.isPrefixOf k && k != key)
    if subs.isEmpty then none
    else some (forestOf (subs.map (fun k => (k, make_sectionsAux toc fuel k))))

/-- Embedding of `make_sections(key)`: collect the sub-structure of every
declared key that has `key` as a raw string prefix and differs from it;
an empty sub-structure is `None`. -/
def make_sections (m : CitationsMap) (key : PyStr) : Option SecForest :=
  make_sectionsAux m.toc (m.toc.length + 1) key

/-- Embedding of the `mlvl_keys` construction of `fill_tex_body`
(src/main.py lines 157-158): one top-level entry per declared key with no
`::` in it. -/
def mlvl_keys (m : CitationsMap) : SecForest :=
  forestOf ((m.toc.filter (fun k => countDC k == 0)).map (fun key => (key, make_sections m key)))

/-- The fixed heading-kind progression `section_per_depth`
(src/main.py line 161). -/
def section_per_depth : List PyStr :=
  ["section".toList, "subsection".toList, "subsubsection".toList,
   "paragraph".toList, "subparagraph".toList]

/-- The `tab` indentation of a key: `"\t" * k.count("::")`
(src/main.py line 166). -/
def tabOf (k : PyStr) : PyStr := List.replicate (countDC k) '\t'

/-- The `\addtocontents` line emitted at depth 0 (src/main.py line 168). -/
def addtocLine (k : PyStr) : PyStr :=
  tabOf k ++ "\\addtocontents\x7btoc\x7d\x7b\\setcounter\x7btocdepth\x7d\x7b6\x7d\x7d".toList

/-- The heading line of a section (src/main.py line 169). -/
def headerLine (k kind : PyStr) : PyStr :=
  tabOf k ++ '\\' :: (kind ++ '\x7b' :: (lastSeg k ++ ['\x7d']))

/-- The `begin_enum` line (src/main.py line 177). -/
def beginLine (k : PyStr) : PyStr := tabOf k ++ "\\begin\x7benumerate\x7d".toList

/-- The list-end line (src/main.py line 184). -/
def endLine (k : PyStr) : PyStr := tabOf k ++ "\\end\x7benumerate\x7d".toList

/-- The placeholder entry `tab + "\t" + "\item"` (src/main.py line 182). -/
def placeholderLine (k : PyStr) : PyStr := tabOf k ++ '\t' :: "\\item".toList

/-- A rendered cited-item line (src/main.py line 180). -/
def itemLine (k : PyStr) (it : CitedItem) : PyStr :=
  tabOf k ++ '\t' :: (it.to_latex ++ ['\n'])

/-- State of the `write_tex` closure: the accumulated `tex_body` lines and
the `used_keys` duplicate-emission guard. -/
structure TexSt where
  tex_body : List PyStr
  used_keys : List PyStr
deriving DecidableEq

/-- Embedding of `write_tex` (src/main.py lines 162-186) by explicit state
passing.  For each entry: skip if already used; at depth 0 emit the
`\addtocontents` line; emit the heading (the tuple subscript
`section_per_depth[depth]` raises `IndexError` for depth ≥ 5); read the
exact bucket (`skip_check=True`); recurse into a dict value at
`depth + 1`; emit `begin_enum`, the item lines, the placeholder `\item`
when the last two lines are exactly this section's `begin_enum` and
heading, and the list-end line; finally mark the key used and continue
with the remaining entries. -/
def write_tex (m : CitationsMap) : Nat → TexSt → SecForest → Except PyErr TexSt
  | _, st, SecForest.nil => Except.ok st
  | depth, st, SecForest.consLeaf k rest =>
    if k ∈ st.used_keys then write_tex m depth st rest
    else
      let tb0 := if depth == 0 then st.tex_body ++ [addtocLine k] else st.tex_body
      match section_per_depth.get? depth with
      | none => Except.error (PyErr.indexError depth)
      | some kind =>
        let tb1 := tb0 ++ [headerLine k kind]
        match m.get k false true with
        | Except.error e => Except.error e
        | Except.ok cited_items =>
          let tb3 := (tb1 ++ [beginLine k]) ++ cited_items.map (fun it => itemLine k it)
          let tb4 :=
            if tb3.getLast? = some (beginLine k) ∧ tb3.dropLast.getLast? = some (headerLine k kind)
            then tb3 ++ [placeholderLine k] else tb3
          write_tex m depth ⟨tb4 ++ [endLine k], st.used_keys ++ [k]⟩ rest
  | depth, st, SecForest.consNode k children rest =>
    if k ∈ st.used_keys then write_tex m depth st rest
    else
      let tb0 := if depth == 0 then st.tex_body ++ [addtocLine k] else st.tex_body
      match section_per_depth.get? depth with
      | none => Except.error (PyErr.indexError depth)
      | some kind =>
        let tb1 := tb0 ++ [headerLine k kind]
        match m.get k false true with
        | Except.error e => Except.error e
        | Except.ok cited_items =>
          match write_tex m (depth + 1) ⟨tb1, st.used_keys⟩ children with
          | Except.error e => Except.error e
          | Except.ok stc =>
            let tb3 := (stc.tex_body ++ [beginLine k]) ++ cited_items.map (fun it => itemLine k it)
            let tb4 :=
              if tb3.getLast? = some (beginLine k) ∧ tb3.dropLast.getLast? = some (headerLine k kind)
              then tb3 ++ [placeholderLine k] else tb3
            write_tex m depth ⟨tb4 ++ [endLine k], stc.used_keys ++ [k]⟩ rest

/-- Embedding of `fill_tex_body` (src/main.py lines 145-188). -/
def fill_tex_body (m : CitationsMap) : Except PyErr (List PyStr) :=
  match write_tex m 0 ⟨[], []⟩ (mlvl_keys m) with
  | Except.ok st => Except.ok st.tex_body
  | Except.error e => Except.error e

/-- Specification-side notion of segment-boundary ancestry, from the spec:
path A is an ancestor of (or equal to) path B iff B's segment sequence
extends A's segment sequence. -/
def segAncestor (a b : PyStr) : Bool := (splitDC a).isPrefixOf (splitDC b)

/-- Specification-side multilevel union: the ordered first-seen-dedup union
of the buckets of exactly those declared keys that are K or segment-boundary
descendants of K, in declared-key order (the union claim C2 makes). -/
def specMLSeg (m : CitationsMap) (k : PyStr) : List CitedItem :=
  (m.toc.filter (fun x => segAncestor k x)).foldl
    (fun v kk => ((assocFind m.d kk).getD []).foldl osAdd v) []

/-- Specification-side multilevel union with raw string-prefix descendants:
concatenate the buckets of the declared keys having K as raw string prefix,
in declared-key order, then deduplicate keeping first occurrences. -/
def specMLRaw (m : CitationsMap) (k : PyStr) : List CitedItem :=
  ((m.toc.filter (fun x => k.isPrefixOf x)).map (fun kk => (assocFind m.d kk).getD [])).flatten.foldl osAdd []

/-- Count of leading tab characters of a rendered line. -/
def leadTabs : List Char → Nat
  | '\t' :: r => leadTabs r + 1
  | _ => 0

/-- Drop the leading tab characters of a rendered line. -/
def dropTabs : List Char → List Char
  | '\t' :: r => dropTabs r
  | l => l

/-- Whether two consecutive lines form a malformed empty list construct: a
list-begin marker immediately followed by the matching (same indentation)
list-end marker. -/
def isBeginEndPair (a b : PyStr) : Bool :=
  leadTabs a == leadTabs b
    && dropTabs a == "\\begin\x7benumerate\x7d".toList
    && dropTabs b == "\\end\x7benumerate\x7d".toList

/-- Whether a rendered body contains an adjacent begin/end pair. -/
def hasAdjacentBeginEnd : List PyStr → Bool
  | a :: b :: rest => isBeginEndPair a b || hasAdjacentBeginEnd (b :: rest)
  | _ => false

/-- A call against the `CitationsMap` API after construction: `add` or
`get`. -/
inductive MapOp where
  | addCall (item : CitedItem)
  | getCall (k : PyStr) (mlvl : Bool) (skip : Bool)
deriving DecidableEq

/-- Apply one call to the state.  `add` keeps the (possibly partially)
mutated state whether it succeeds or fails; `get` only reads `self.__d`
in the source, so it leaves the state unchanged. -/
def applyOp (m : CitationsMap) : MapOp → CitationsMap
  | MapOp.addCall item => (m.add item).1
  | MapOp.getCall _ _ _ => m

/-- The key of the first entry of a forest, if any. -/
def SecForest.headKey? : SecForest → Option PyStr
  | SecForest.nil => none
  | SecForest.consLeaf k _ => some k
  | SecForest.consNode k _ _ => some k

/-- A six-level chain taxonomy description
`{"a": {"b": {"c": {"d": {"e": {"f": []}}}}}}`, whose rendering reaches
recursion depth 5. -/
def deepChainDesc : DescEntries :=
  DescEntries.consNode "a".toList
    (DescEntries.consNode "b".toList
      (DescEntries.consNode "c".toList
        (DescEntries.consNode "d".toList
          (DescEntries.consNode "e".toList
            (DescEntries.consLeaf "f".toList DescEntries.nil)
            DescEntries.nil)
          DescEntries.nil)
        DescEntries.nil)
      DescEntries.nil)
    DescEntries.nil


theorem splitDC_ne_nil (s : List Char) : splitDC s ≠ [] := by
  induction s using splitDC.induct with
  | case1 => simp [splitDC]
  | case2 rest ih => simp [splitDC]
  | case3 c rest h s ss heq ih => simp [splitDC, heq]
  | case4 c rest h heq ih => simp [splitDC, heq]

theorem joinDC_splitDC (s : List Char) : joinDC (splitDC s) = s := by
  induction s using splitDC.induct with
  | case1 => rfl
  | case2 rest ih =>
    obtain ⟨x, xs, hx⟩ := List.exists_cons_of_ne_nil (splitDC_ne_nil rest)
    rw [hx] at ih
    simp only [splitDC, hx, joinDC]
    rw [List.nil_append, ih]
  | case3 c rest h s ss heq ih =>
    rw [heq] at ih
    cases ss with
    | nil =>
      simp only [splitDC, heq, joinDC] at ih ⊢
      rw [ih]
    | cons y ys =>
      simp only [splitDC, heq, joinDC] at ih ⊢
      rw [List.cons_append, ih]
  | case4 c rest h heq ih => exact absurd heq (splitDC_ne_nil rest)

theorem mem_osAdd {s : List CitedItem} {x y : CitedItem} : x ∈ osAdd s y ↔ x ∈ s ∨ x = y := by
  unfold osAdd
  split
  · constructor
    · exact Or.inl
    · rintro (h | rfl) <;> assumption
  · simp [List.mem_append]

theorem osAdd_nodup {s : List CitedItem} {x : CitedItem} (h : s.Nodup) : (osAdd s x).Nodup := by
  unfold osAdd
  split
  · exact h
  · rename_i hx
    refine List.Nodup.append h (List.nodup_singleton x) ?_
    intro a ha hb
    rw [List.mem_singleton] at hb
    subst hb
    exact hx ha

theorem foldl_osAdd_nodup (l : List CitedItem) (acc : List CitedItem) (h : acc.Nodup) :
    (l.foldl osAdd acc).Nodup := by
  induction l generalizing acc with
  | nil => exact h
  | cons a l ih => exact ih _ (osAdd_nodup h)

theorem mem_foldl_osAdd (l : List CitedItem) (acc : List CitedItem) (x : CitedItem) :
    x ∈ l.foldl osAdd acc ↔ x ∈ acc ∨ x ∈ l := by
  induction l generalizing acc with
  | nil => simp
  | cons a l ih =>
    simp only [List.foldl_cons, ih, mem_osAdd, List.mem_cons]
    tauto

theorem foldl_osAdd_buckets (bs : List (List CitedItem)) (acc : List CitedItem) :
    bs.foldl (fun v b => b.foldl osAdd v) acc = bs.flatten.foldl osAdd acc := by
  induction bs generalizing acc with
  | nil => simp
  | cons b bs ih => simp [ih, List.foldl_append]

theorem getML_eq_specMLRaw (m : CitationsMap) (k : PyStr) : m.getML k = specMLRaw m k := by
  unfold CitationsMap.getML specMLRaw
  rw [← foldl_osAdd_buckets, List.foldl_map]

theorem assocUpdate_map_fst (d : List (PyStr × List CitedItem)) (k : PyStr)
    (f : List CitedItem → List CitedItem) :
    (assocUpdate d k f).map Prod.fst = d.map Prod.fst := by
  induction d with
  | nil => rfl
  | cons kv rest ih =>
    obtain ⟨k', v⟩ := kv
    unfold assocUpdate
    split <;> simp [ih]

theorem assocFind_eq_none_iff (d : List (PyStr × List CitedItem)) (k : PyStr) :
    assocFind d k = none ↔ k ∉ d.map Prod.fst := by
  induction d with
  | nil => simp [assocFind]
  | cons kv rest ih =>
    obtain ⟨k', v⟩ := kv
    unfold assocFind
    split
    · simp_all
    · simp_all [eq_comm]

theorem assocFind_isSome_of_mem {d : List (PyStr × List CitedItem)} {k : PyStr}
    (h : k ∈ d.map Prod.fst) : ∃ b, assocFind d k = some b := by
  cases hf : assocFind d k with
  | none => exact absurd ((assocFind_eq_none_iff d k).1 hf) (by simp [h])
  | some b => exact ⟨b, rfl⟩

theorem assocFind_update_self {d : List (PyStr × List CitedItem)} {k : PyStr} {b : List CitedItem}
    (f : List CitedItem → List CitedItem) (h : assocFind d k = some b) :
    assocFind (assocUpdate d k f) k = some (f b) := by
  induction d with
  | nil => simp [assocFind] at h
  | cons kv rest ih =>
    obtain ⟨k', v⟩ := kv
    unfold assocFind at h
    unfold assocUpdate
    split
    · rename_i heq
      rw [if_pos heq] at h
      cases h
      simp [assocFind, heq]
    · rename_i heq
      rw [if_neg heq] at h
      simp [assocFind, heq, ih h]

theorem assocFind_update_other {d : List (PyStr × List CitedItem)} {k k' : PyStr}
    (f : List CitedItem → List CitedItem) (h : k' ≠ k) :
    assocFind (assocUpdate d k f) k' = assocFind d k' := by
  induction d with
  | nil => rfl
  | cons kv rest ih =>
    obtain ⟨k'', v⟩ := kv
    by_cases hk : k'' = k
    · subst hk
      simp only [assocUpdate, if_pos rfl]
      simp [assocFind, Ne.symm h]
    · simp only [assocUpdate, if_neg hk]
      simp only [assocFind]
      split <;> simp [ih]

theorem check_key_exact {m : CitationsMap} {k : PyStr} (h : canonicalize k ∈ m.toc) :
    m.check_key k = Except.ok (canonicalize k) := by
  unfold CitationsMap.check_key
  simp [h]

theorem check_key_ok_of_any {m : CitationsMap} {k : PyStr}
    (h : m.toc.any (fun key => (canonicalize k).isPrefixOf key) = true) :
    m.check_key k = Except.ok (canonicalize k) := by
  by_cases hm : canonicalize k ∈ m.toc
  · exact check_key_exact hm
  · simp [CitationsMap.check_key, hm, h]

theorem check_key_fail {m : CitationsMap} {k : PyStr} (h1 : canonicalize k ∉ m.toc)
    (h2 : ¬ m.toc.any (fun key => (canonicalize k).isPrefixOf key) = true) :
    m.check_key k = Except.error (PyErr.unknownCategory (canonicalize k) m.toc) := by
  unfold CitationsMap.check_key
  simp [h1, h2]

theorem mem_toc_iff_assocFind {m : CitationsMap} {k : PyStr} :
    k ∈ m.toc ↔ ∃ b, assocFind m.d k = some b := by
  constructor
  · intro h
    exact assocFind_isSome_of_mem h
  · rintro ⟨b, hb⟩
    by_contra hmem
    unfold CitationsMap.toc at hmem
    rw [← assocFind_eq_none_iff m.d k] at hmem
    rw [hmem] at hb
    cases hb

theorem addOne_exact {m : CitationsMap} {k : PyStr} (item : CitedItem)
    (h : canonicalize k ∈ m.toc) :
    m.addOne k item =
      Except.ok ⟨assocUpdate m.d (canonicalize k) (fun b => osAdd b item)⟩ := by
  obtain ⟨b, hb⟩ := mem_toc_iff_assocFind.1 h
  simp [CitationsMap.addOne, check_key_exact h, hb]

theorem addOne_toc {m m' : CitationsMap} {k : PyStr} {item : CitedItem}
    (h : m.addOne k item = Except.ok m') : m'.toc = m.toc := by
  unfold CitationsMap.addOne at h
  cases hck : m.check_key k with
  | error e => rw [hck] at h; cases h
  | ok k' =>
    rw [hck] at h
    simp only [] at h
    cases hf : assocFind m.d k' with
    | none => rw [hf] at h; cases h
    | some b =>
      simp only [hf, Except.ok.injEq] at h
      subst h
      unfold CitationsMap.toc
      exact assocUpdate_map_fst m.d k' _

theorem addLocs_toc (ls : List PyStr) (m : CitationsMap) (item : CitedItem) :
    ((m.addLocs item ls).1).toc = m.toc := by
  induction ls generalizing m with
  | nil => rfl
  | cons l ls ih =>
    unfold CitationsMap.addLocs
    cases ha : m.addOne l item with
    | error e => rfl
    | ok m' => rw [ih m', addOne_toc ha]

theorem add_toc (m : CitationsMap) (item : CitedItem) : ((m.add item).1).toc = m.toc :=
  addLocs_toc item.location m item

theorem canonicalize_of_unmapped {P : PyStr} (h : ∀ seg ∈ splitDC P, ABBREV_MAP.lookup seg = none) :
    canonicalize P = P := by
  unfold canonicalize
  have hmap : (splitDC P).map abbrevGet = splitDC P := by
    have : (splitDC P).map abbrevGet = (splitDC P).map id := by
      apply List.map_congr_left
      intro seg hs
      simp [abbrevGet, h seg hs]
    rw [this, List.map_id]
  rw [hmap, joinDC_splitDC]

/-- C6: for every declared key P all of whose segments are outside the
abbreviation table, `_check_key` returns P unchanged. -/
theorem C6_validate_identity_on_canonical (m : CitationsMap) (P : PyStr) (hP : P ∈ m.toc)
    (h : ∀ seg ∈ splitDC P, ABBREV_MAP.lookup seg = none) :
    m.check_key P = Except.ok P := by
  have hc : canonicalize P = P := canonicalize_of_unmapped h
  have hmem : canonicalize P ∈ m.toc := by rw [hc]; exact hP
  rw [check_key_exact hmem, hc]

/-- Witness for C6 at the concrete declared key `augmentations::crop`. -/
theorem C6_witness :
    ("augmentations::crop".toList ∈ (CitationsMap.init ["augmentations".toList, "augmentations::crop".toList]).toc
      ∧ ∀ seg ∈ splitDC "augmentations::crop".toList, ABBREV_MAP.lookup seg = none)
    ∧ (CitationsMap.init ["augmentations".toList, "augmentations::crop".toList]).check_key
        "augmentations::crop".toList = Except.ok "augmentations::crop".toList :=
  ⟨⟨by decide, by decide⟩,
    C6_validate_identity_on_canonical _ _ (by decide) (by decide)⟩

/-- C9: the declared key set and its order are fixed at construction: any
sequence of `add` and `get` calls leaves `toc()` unchanged. -/
theorem C9_toc_invariant (m : CitationsMap) (ops : List MapOp) :
    (ops.foldl applyOp m).toc = m.toc := by
  induction ops generalizing m with
  | nil => rfl
  | cons op ops ih =>
    rw [List.foldl_cons, ih]
    cases op with
    | addCall item => exact add_toc m item
    | getCall k mlvl skip => rfl

theorem check_key_ok_val {m : CitationsMap} {k k' : PyStr} (h : m.check_key k = Except.ok k') :
    k' = canonicalize k := by
  by_cases h1 : canonicalize k ∈ m.toc
  · rw [check_key_exact h1] at h
    cases h
    rfl
  · by_cases h2 : m.toc.any (fun key => (canonicalize k).isPrefixOf key) = true
    · rw [check_key_ok_of_any h2] at h
      cases h
      rfl
    · rw [check_key_fail h1 h2] at h
      cases h

/-- C1 counterexample: against the single declared key `aug`, the query
`au` is only a raw-character prefix (not a segment-boundary one, and not an
exact key), yet `_check_key` accepts it instead of failing with
`UnknownCategory`. -/
theorem C1_counterexample :
    (CitationsMap.init ["aug".toList]).check_key "au".toList = Except.ok "au".toList
    ∧ canonicalize "au".toList = "au".toList
    ∧ segAncestor "au".toList "aug".toList = false
    ∧ "au".toList ∉ (CitationsMap.init ["aug".toList]).toc := by decide

/-- C1 (amended): `_check_key` canonicalizes segment-wise and succeeds,
returning the canonical string, iff that string is an exact declared key or
a raw string prefix (not necessarily at a segment boundary) of at least one
declared key; otherwise it fails with `UnknownCategory` enumerating the
full declared key set. -/
theorem C1_check_key_characterization (m : CitationsMap) (k : PyStr) :
    (m.check_key k = Except.ok (canonicalize k) ↔
      canonicalize k ∈ m.toc ∨ ∃ key ∈ m.toc, (canonicalize k).isPrefixOf key)
    ∧ (m.check_key k ≠ Except.ok (canonicalize k) →
      m.check_key k = Except.error (PyErr.unknownCategory (canonicalize k) m.toc)) := by
  by_cases h1 : canonicalize k ∈ m.toc
  · refine ⟨⟨fun _ => Or.inl h1, fun _ => check_key_exact h1⟩, fun hne => ?_⟩
    exact absurd (check_key_exact h1) hne
  · by_cases h2 : m.toc.any (fun key => (canonicalize k).isPrefixOf key) = true
    · refine ⟨⟨fun _ => Or.inr ?_, fun _ => check_key_ok_of_any h2⟩, fun hne => ?_⟩
      · simpa using h2
      · exact absurd (check_key_ok_of_any h2) hne
    · refine ⟨⟨fun hok => ?_, fun hor => ?_⟩, fun _ => check_key_fail h1 h2⟩
      · rw [check_key_fail h1 h2] at hok
        cases hok
      · rcases hor with hmem | hex
        · exact absurd hmem h1
        · exact absurd (by simpa using hex) h2

/-- Witness for the amended C1 at concrete inputs: the abbreviated query
`aug` canonicalizes to the declared key `augmentations` and is accepted. -/
theorem C1_witness :
    (canonicalize "aug".toList ∈ (CitationsMap.init ["augmentations".toList]).toc
      ∨ ∃ key ∈ (CitationsMap.init ["augmentations".toList]).toc, (canonicalize "aug".toList).isPrefixOf key)
    ∧ (CitationsMap.init ["augmentations".toList]).check_key "aug".toList
      = Except.ok (canonicalize "aug".toList) :=
  ⟨Or.inl (by decide),
    (C1_check_key_characterization (CitationsMap.init ["augmentations".toList]) "aug".toList).1.mpr
      (Or.inl (by decide))⟩

/-- C4 counterexample: `from_json` stores declared keys verbatim, without
abbreviation canonicalization.  Replacing the canonical declared segment
`augmentations` by its short code `aug` changes the declared key set, and
the resulting map cannot resolve the key at all: `aug` canonicalizes to
`augmentations`, which is neither a stored key nor a raw prefix of one. -/
theorem C4_counterexample :
    (CitationsMap.from_json (DescEntries.consLeaf "aug".toList DescEntries.nil)).toc
      ≠ (CitationsMap.from_json (DescEntries.consLeaf "augmentations".toList DescEntries.nil)).toc
    ∧ (CitationsMap.from_json (DescEntries.consLeaf "aug".toList DescEntries.nil)).check_key "aug".toList
      = Except.error (PyErr.unknownCategory "augmentations".toList ["aug".toList]) := by decide

/-- C4 (amended): abbreviation canonicalization is applied to entry
location paths and query keys, but not to the paths declared in the
taxonomy description (those are stored verbatim).  When the taxonomy
declares the canonical form, an item tagged with the short code lands in
the same bucket as an item tagged with the canonical path. -/
theorem C4_abbrev_interchange (m : CitationsMap) (raw : PyStr) (i1 i2 : CitedItem)
    (hloc1 : i1.location = [raw]) (hloc2 : i2.location = [canonicalize raw])
    (hmem : canonicalize raw ∈ m.toc)
    (hidem : canonicalize (canonicalize raw) = canonicalize raw) :
    ∃ m1 m2 b,
      m.add i1 = (m1, none) ∧ m1.add i2 = (m2, none)
      ∧ assocFind m2.d (canonicalize raw) = some b ∧ i1 ∈ b ∧ i2 ∈ b := by
  obtain ⟨b0, hb0⟩ := mem_toc_iff_assocFind.1 hmem
  have hm1def : m.addOne raw i1 = Except.ok ⟨assocUpdate m.d (canonicalize raw) (fun b => osAdd b i1)⟩ :=
    addOne_exact i1 hmem
  have h1 : m.add i1 = (⟨assocUpdate m.d (canonicalize raw) (fun b => osAdd b i1)⟩, none) := by
    unfold CitationsMap.add
    rw [hloc1]
    simp [CitationsMap.addLocs, hm1def]
  have hm1toc : (⟨assocUpdate m.d (canonicalize raw) (fun b => osAdd b i1)⟩ : CitationsMap).toc = m.toc :=
    assocUpdate_map_fst m.d _ _
  have hmem1 : canonicalize (canonicalize raw) ∈
      (⟨assocUpdate m.d (canonicalize raw) (fun b => osAdd b i1)⟩ : CitationsMap).toc := by
    rw [hidem, hm1toc]
    exact hmem
  have hm2def := addOne_exact (m := ⟨assocUpdate m.d (canonicalize raw) (fun b => osAdd b i1)⟩)
    (k := canonicalize raw) i2 hmem1
  rw [hidem] at hm2def
  have h2 : (⟨assocUpdate m.d (canonicalize raw) (fun b => osAdd b i1)⟩ : CitationsMap).add i2
      = (⟨assocUpdate (assocUpdate m.d (canonicalize raw) (fun b => osAdd b i1))
          (canonicalize raw) (fun b => osAdd b i2)⟩, none) := by
    unfold CitationsMap.add
    rw [hloc2]
    simp [CitationsMap.addLocs, hm2def]
  have hf1 : assocFind (assocUpdate m.d (canonicalize raw) (fun b => osAdd b i1)) (canonicalize raw)
      = some (osAdd b0 i1) := assocFind_update_self _ hb0
  have hf2 : assocFind (assocUpdate (assocUpdate m.d (canonicalize raw) (fun b => osAdd b i1))
        (canonicalize raw) (fun b => osAdd b i2)) (canonicalize raw)
      = some (osAdd (osAdd b0 i1) i2) := assocFind_update_self _ hf1
  refine ⟨_, _, _, h1, h2, hf2, ?_, ?_⟩
  · exact mem_osAdd.2 (Or.inl (mem_osAdd.2 (Or.inr rfl)))
  · exact mem_osAdd.2 (Or.inr rfl)

/-- Witness for the amended C4: with the canonical taxonomy key
`augmentations`, an item tagged `aug` and an item tagged `augmentations`
end up in the same bucket. -/
theorem C4_witness :
    (canonicalize "aug".toList ∈
        (CitationsMap.from_json (DescEntries.consLeaf "augmentations".toList DescEntries.nil)).toc)
    ∧ ∃ m1 m2 b,
        (CitationsMap.from_json (DescEntries.consLeaf "augmentations".toList DescEntries.nil)).add
            ⟨"p1".toList, "T1".toList, ["aug".toList]⟩ = (m1, none)
        ∧ m1.add ⟨"p2".toList, "T2".toList, [canonicalize "aug".toList]⟩ = (m2, none)
        ∧ assocFind m2.d (canonicalize "aug".toList) = some b
        ∧ (⟨"p1".toList, "T1".toList, ["aug".toList]⟩ : CitedItem) ∈ b
        ∧ (⟨"p2".toList, "T2".toList, [canonicalize "aug".toList]⟩ : CitedItem) ∈ b :=
  ⟨by decide,
    C4_abbrev_interchange _ "aug".toList _ _ rfl rfl (by decide) (by decide)⟩

/-- C5: the `from_json` traversal appends each internal node's joined path
immediately before the contiguous block of its descendants' paths, appends
each leaf's joined path, emits entries in description iteration order, and
on `{"aug": {"crop": [], "flip": []}}` produces exactly
`aug, aug::crop, aug::flip`. -/
theorem C5_traversal_order :
    (∀ (p : List PyStr) (d : DescEntries) (k : PyStr) (c : DescEntries),
      (k, some c) ∈ d.entries →
      ∃ pre post, nodePaths p d = pre ++ joinDC (p ++ [k]) :: (nodePaths (p ++ [k]) c ++ post))
    ∧ (∀ (p : List PyStr) (d : DescEntries) (k : PyStr),
      (k, (none : Option DescEntries)) ∈ d.entries → joinDC (p ++ [k]) ∈ nodePaths p d)
    ∧ nodePaths [] (DescEntries.consNode "aug".toList
        (DescEntries.consLeaf "crop".toList (DescEntries.consLeaf "flip".toList DescEntries.nil))
        DescEntries.nil)
      = ["aug".toList, "aug::crop".toList, "aug::flip".toList] := by
  refine ⟨?_, ?_, by decide⟩
  · intro p d
    induction d with
    | nil => intro k c h; simp [DescEntries.entries] at h
    | consLeaf k' r ih =>
      intro k c h
      simp only [DescEntries.entries, List.mem_cons] at h
      rcases h with h | h
      · cases h
      · obtain ⟨pre, post, hpp⟩ := ih k c h
        exact ⟨joinDC (p ++ [k']) :: pre, post, by simp [nodePaths, hpp]⟩
    | consNode k' c' r ihc ihr =>
      intro k c h
      simp only [DescEntries.entries, List.mem_cons] at h
      rcases h with h | h
      · injection h with hk2 hc2
        injection hc2 with hc3
        subst hk2
        subst hc3
        exact ⟨[], nodePaths p r, by simp [nodePaths]⟩
      · obtain ⟨pre, post, hpp⟩ := ihr k c h
        refine ⟨joinDC (p ++ [k']) :: (nodePaths (p ++ [k']) c' ++ pre), post, ?_⟩
        simp [nodePaths, hpp]
  · intro p d
    induction d with
    | nil => intro k h; simp [DescEntries.entries] at h
    | consLeaf k' r ih =>
      intro k h
      simp only [DescEntries.entries, List.mem_cons] at h
      rcases h with h | h
      · injection h with hk _
        subst hk
        simp [nodePaths]
      · simp [nodePaths, ih k h]
    | consNode k' c' r ihc ihr =>
      intro k h
      simp only [DescEntries.entries, List.mem_cons] at h
      rcases h with h | h
      · cases h
      · simp [nodePaths, ihr k h]

/-- Witness for C5: instantiating the ordering parts on the round-trip
example description. -/
theorem C5_witness :
    (("aug".toList, some (DescEntries.consLeaf "crop".toList (DescEntries.consLeaf "flip".toList DescEntries.nil)))
        ∈ (DescEntries.consNode "aug".toList
            (DescEntries.consLeaf "crop".toList (DescEntries.consLeaf "flip".toList DescEntries.nil))
            DescEntries.nil).entries)
    ∧ ∃ pre post,
        nodePaths [] (DescEntries.consNode "aug".toList
            (DescEntries.consLeaf "crop".toList (DescEntries.consLeaf "flip".toList DescEntries.nil))
            DescEntries.nil)
          = pre ++ joinDC ([] ++ ["aug".toList]) ::
              (nodePaths ([] ++ ["aug".toList])
                (DescEntries.consLeaf "crop".toList (DescEntries.consLeaf "flip".toList DescEntries.nil)) ++ post) :=
  ⟨by decide, C5_traversal_order.1 [] _ "aug".toList _ (by decide)⟩

theorem addOne_prefix_keyError {m : CitationsMap} {k : PyStr} (item : CitedItem)
    (h1 : canonicalize k ∉ m.toc)
    (h2 : m.toc.any (fun key => (canonicalize k).isPrefixOf key) = true) :
    m.addOne k item = Except.error (PyErr.keyError (canonicalize k)) := by
  have hf : assocFind m.d (canonicalize k) = none := by
    rw [assocFind_eq_none_iff]
    exact h1
  unfold CitationsMap.addOne
  rw [check_key_ok_of_any h2]
  simp [hf]

theorem addOne_nomatch_unknown {m : CitationsMap} {k : PyStr} (item : CitedItem)
    (h1 : canonicalize k ∉ m.toc)
    (h2 : ¬ m.toc.any (fun key => (canonicalize k).isPrefixOf key) = true) :
    m.addOne k item = Except.error (PyErr.unknownCategory (canonicalize k) m.toc) := by
  unfold CitationsMap.addOne
  rw [check_key_fail h1 h2]

theorem addOne_fails {m : CitationsMap} {k : PyStr} (item : CitedItem)
    (h : canonicalize k ∉ m.toc) : ∃ e, m.addOne k item = Except.error e := by
  by_cases h2 : m.toc.any (fun key => (canonicalize k).isPrefixOf key) = true
  · exact ⟨_, addOne_prefix_keyError item h h2⟩
  · exact ⟨_, addOne_nomatch_unknown item h h2⟩

theorem addLocs_fails (ls : List PyStr) (m : CitationsMap) (item : CitedItem) (k : PyStr)
    (hk : k ∈ ls) (h : canonicalize k ∉ m.toc) : ((m.addLocs item ls).2).isSome := by
  induction ls generalizing m with
  | nil => cases hk
  | cons l ls ih =>
    unfold CitationsMap.addLocs
    cases hl : m.addOne l item with
    | error e => rfl
    | ok m' =>
      rcases List.mem_cons.1 hk with rfl | hk'
      · obtain ⟨e, he⟩ := addOne_fails item h
        rw [he] at hl
        cases hl
      · have h' : canonicalize k ∉ m'.toc := by
          rw [addOne_toc hl]
          exact h
        exact ih m' hk' h'

/-- C3 counterexample: the location path `to` canonicalizes to itself,
is not a declared key but is a raw prefix of the declared key `top`; `add`
fails — but with a bare `KeyError('to')` that does not enumerate the
declared keys, not with the enumerating `UnknownCategory` error. -/
theorem C3_counterexample :
    (CitationsMap.init ["top".toList, "top::sub".toList]).add
        ⟨"x1".toList, "T".toList, ["to".toList]⟩
      = (CitationsMap.init ["top".toList, "top::sub".toList],
          some (PyErr.keyError "to".toList))
    ∧ (PyErr.keyError "to".toList
        ≠ PyErr.unknownCategory "to".toList ["top".toList, "top::sub".toList]) := by decide

/-- C3 (amended): `add` inserts an item only under location paths whose
canonical form is an exact declared key; any other path makes the call
fail with no insertion for that path.  When the canonical form matches no
declared key even as a raw prefix, the error enumerates the full declared
key set; when it is a raw-prefix-only match, the failure is a bare key
error carrying just the offending canonical path. -/
theorem C3_add_error_modes (m : CitationsMap) (item : CitedItem) (k : PyStr) :
    (canonicalize k ∈ m.toc →
      m.addOne k item = Except.ok ⟨assocUpdate m.d (canonicalize k) (fun b => osAdd b item)⟩)
    ∧ (canonicalize k ∉ m.toc → m.toc.any (fun key => (canonicalize k).isPrefixOf key) = true →
      m.addOne k item = Except.error (PyErr.keyError (canonicalize k)))
    ∧ (canonicalize k ∉ m.toc → ¬ m.toc.any (fun key => (canonicalize k).isPrefixOf key) = true →
      m.addOne k item = Except.error (PyErr.unknownCategory (canonicalize k) m.toc))
    ∧ (k ∈ item.location → canonicalize k ∉ m.toc → ((m.add item).2).isSome) :=
  ⟨fun h => addOne_exact item h,
   fun h1 h2 => addOne_prefix_keyError item h1 h2,
   fun h1 h2 => addOne_nomatch_unknown item h1 h2,
   fun hk h => addLocs_fails item.location m item k hk h⟩

/-- Witness for the amended C3 at the raw-prefix-only path `to` against
declared keys `top` and `top::sub`. -/
theorem C3_witness :
    (canonicalize "to".toList ∉ (CitationsMap.init ["top".toList, "top::sub".toList]).toc
      ∧ (CitationsMap.init ["top".toList, "top::sub".toList]).toc.any
          (fun key => (canonicalize "to".toList).isPrefixOf key) = true)
    ∧ (CitationsMap.init ["top".toList, "top::sub".toList]).addOne "to".toList
        ⟨"x1".toList, "T".toList, ["to".toList]⟩
      = Except.error (PyErr.keyError (canonicalize "to".toList)) :=
  ⟨⟨by decide, by decide⟩,
    (C3_add_error_modes (CitationsMap.init ["top".toList, "top::sub".toList])
      ⟨"x1".toList, "T".toList, ["to".toList]⟩ "to".toList).2.1 (by decide) (by decide)⟩

/-- C2 counterexample: with declared keys `ab` and `abc` and one item filed
under `abc`, the multilevel query for `ab` returns that item, although
`abc` is not a segment-boundary descendant of `ab`: the union the claim
describes (over segment-boundary descendants only) is empty. -/
theorem C2_counterexample :
    (((CitationsMap.init ["ab".toList, "abc".toList]).add
          ⟨"x1".toList, "T".toList, ["abc".toList]⟩).1).get "ab".toList true false
      = Except.ok [⟨"x1".toList, "T".toList, ["abc".toList]⟩]
    ∧ specMLSeg (((CitationsMap.init ["ab".toList, "abc".toList]).add
          ⟨"x1".toList, "T".toList, ["abc".toList]⟩).1) "ab".toList = [] := by decide

/-- C2 (amended): for a key accepted by both forms, the multilevel result
is a superset of the exact result, has no duplicates, and equals the
first-seen deduplication of the concatenation, in declared-key order, of
the buckets of every declared key having the canonical query as a raw
string prefix (segment boundaries are not respected). -/
theorem C2_multilevel_union (m : CitationsMap) (k : PyStr) (b v : List CitedItem)
    (hb : m.get k false false = Except.ok b) (hv : m.get k true false = Except.ok v) :
    (∀ x ∈ b, x ∈ v) ∧ v = specMLRaw m (canonicalize k) ∧ v.Nodup := by
  cases hck : m.check_key k with
  | error e => simp [CitationsMap.get, hck] at hb
  | ok c =>
    have hc : c = canonicalize k := check_key_ok_val hck
    subst hc
    simp [CitationsMap.get, hck] at hb hv
    cases hf : assocFind m.d (canonicalize k) with
    | none => simp [hf] at hb
    | some b0 =>
      rw [hf] at hb
      simp only [Except.ok.injEq] at hb hv
      subst hb
      subst hv
      have hmemtoc : canonicalize k ∈ m.toc := mem_toc_iff_assocFind.2 ⟨b0, hf⟩
      refine ⟨?_, getML_eq_specMLRaw m (canonicalize k), ?_⟩
      · intro x hx
        rw [getML_eq_specMLRaw]
        unfold specMLRaw
        rw [mem_foldl_osAdd]
        refine Or.inr (List.mem_flatten.2 ⟨b0, ?_, hx⟩)
        refine List.mem_map.2 ⟨canonicalize k, ?_, by rw [hf]; rfl⟩
        refine List.mem_filter.2 ⟨hmemtoc, ?_⟩
        rw [List.isPrefixOf_iff_prefix]
      · rw [getML_eq_specMLRaw]
        unfold specMLRaw
        exact foldl_osAdd_nodup _ _ List.nodup_nil

/-- Witness for the amended C2 on a concrete two-key map with one item. -/
theorem C2_witness :
    ((((CitationsMap.init ["ab".toList, "abc".toList]).add
          ⟨"x1".toList, "T".toList, ["abc".toList]⟩).1).get "ab".toList false false
        = Except.ok []
      ∧ (((CitationsMap.init ["ab".toList, "abc".toList]).add
          ⟨"x1".toList, "T".toList, ["abc".toList]⟩).1).get "ab".toList true false
        = Except.ok [⟨"x1".toList, "T".toList, ["abc".toList]⟩])
    ∧ ((∀ x ∈ ([] : List CitedItem), x ∈ [(⟨"x1".toList, "T".toList, ["abc".toList]⟩ : CitedItem)])
      ∧ [(⟨"x1".toList, "T".toList, ["abc".toList]⟩ : CitedItem)]
          = specMLRaw (((CitationsMap.init ["ab".toList, "abc".toList]).add
              ⟨"x1".toList, "T".toList, ["abc".toList]⟩).1) (canonicalize "ab".toList)
      ∧ ([(⟨"x1".toList, "T".toList, ["abc".toList]⟩ : CitedItem)]).Nodup) :=
  ⟨⟨by decide, by decide⟩,
    C2_multilevel_union _ "ab".toList _ _ (by decide) (by decide)⟩

theorem addLocs_cons_ok {m m1 : CitationsMap} {item : CitedItem} {l : PyStr} {ls : List PyStr}
    (h : m.addOne l item = Except.ok m1) :
    m.addLocs item (l :: ls) = m1.addLocs item ls := by
  conv_lhs => rw [CitationsMap.addLocs.eq_def]
  simp only [h]

theorem addOne_preserves {m m' : CitationsMap} {kk : PyStr} {item : CitedItem}
    (h : m.addOne kk item = Except.ok m') {k : PyStr} {b : List CitedItem}
    (hf : assocFind m.d k = some b) :
    ∃ b', assocFind m'.d k = some b' ∧ ∀ x ∈ b, x ∈ b' := by
  unfold CitationsMap.addOne at h
  cases hck : m.check_key kk with
  | error e => rw [hck] at h; cases h
  | ok c =>
    rw [hck] at h
    simp only [] at h
    cases hf2 : assocFind m.d c with
    | none => rw [hf2] at h; cases h
    | some b2 =>
      simp only [hf2, Except.ok.injEq] at h
      subst h
      by_cases hk : k = c
      · subst hk
        rw [hf] at hf2
        injection hf2 with hb2
        subst hb2
        exact ⟨osAdd b item, assocFind_update_self _ hf, fun x hx => mem_osAdd.2 (Or.inl hx)⟩
      · refine ⟨b, ?_, fun x hx => hx⟩
        rw [assocFind_update_other _ hk]
        exact hf

theorem addLocs_preserves (ls : List PyStr) (m : CitationsMap) (item : CitedItem) (k : PyStr)
    (b : List CitedItem) (hf : assocFind m.d k = some b) :
    ∃ b', assocFind (((m.addLocs item ls).1).d) k = some b' ∧ ∀ x ∈ b, x ∈ b' := by
  induction ls generalizing m b with
  | nil => exact ⟨b, hf, fun x hx => hx⟩
  | cons l ls ih =>
    unfold CitationsMap.addLocs
    cases hl : m.addOne l item with
    | error e => exact ⟨b, hf, fun x hx => hx⟩
    | ok m' =>
      obtain ⟨b1, hb1, hsub1⟩ := addOne_preserves hl hf
      obtain ⟨b2, hb2, hsub2⟩ := ih m' b1 hb1
      exact ⟨b2, hb2, fun x hx => hsub2 x (hsub1 x hx)⟩

/-- C10: `add` is not atomic across location paths: with valid paths
`goods` followed by an invalid path `bad`, the call fails but the item
remains inserted in the bucket of every earlier (canonicalized) path of
the final state. -/
theorem C10_partial_mutation (m : CitationsMap) (item : CitedItem) (goods : List PyStr)
    (bad : PyStr) (rest : List PyStr)
    (hloc : item.location = goods ++ bad :: rest)
    (hgood : ∀ g ∈ goods, canonicalize g ∈ m.toc)
    (hbad : canonicalize bad ∉ m.toc) :
    ((m.add item).2).isSome
    ∧ ∀ g ∈ goods, ∃ b, assocFind ((m.add item).1).d (canonicalize g) = some b ∧ item ∈ b := by
  have main : ∀ (gs : List PyStr) (m0 : CitationsMap), (∀ g ∈ gs, canonicalize g ∈ m0.toc) →
      canonicalize bad ∉ m0.toc →
      ((m0.addLocs item (gs ++ bad :: rest)).2).isSome
      ∧ ∀ g ∈ gs, ∃ b, assocFind ((m0.addLocs item (gs ++ bad :: rest)).1).d (canonicalize g)
          = some b ∧ item ∈ b := by
    intro gs
    induction gs with
    | nil =>
      intro m0 hg hb
      rw [List.nil_append]
      refine ⟨addLocs_fails _ m0 item bad (List.mem_cons_self bad rest) hb, ?_⟩
      intro g hg'
      cases hg'
    | cons g gs ih =>
      intro m0 hg hb
      have hmem : canonicalize g ∈ m0.toc := hg g (List.mem_cons_self g gs)
      obtain ⟨b0, hb0⟩ := mem_toc_iff_assocFind.1 hmem
      have h1 := addOne_exact (m := m0) item hmem
      have hstep : m0.addLocs item ((g :: gs) ++ bad :: rest)
          = (⟨assocUpdate m0.d (canonicalize g) (fun b => osAdd b item)⟩ : CitationsMap).addLocs
              item (gs ++ bad :: rest) := by
        rw [List.cons_append]
        exact addLocs_cons_ok h1
      have htoc1 : (⟨assocUpdate m0.d (canonicalize g) (fun bb => osAdd bb item)⟩ : CitationsMap).toc
          = m0.toc := assocUpdate_map_fst m0.d _ _
      have ihh := ih ⟨assocUpdate m0.d (canonicalize g) (fun b => osAdd b item)⟩
        (fun g' hg' => by rw [htoc1]; exact hg g' (List.mem_cons_of_mem g hg'))
        (by rw [htoc1]; exact hb)
      rw [hstep]
      refine ⟨ihh.1, ?_⟩
      intro g' hg'
      rcases List.mem_cons.1 hg' with rfl | hg''
      · have hfind1 : assocFind (assocUpdate m0.d (canonicalize g') (fun bb => osAdd bb item)) (canonicalize g')
            = some (osAdd b0 item) := assocFind_update_self _ hb0
        obtain ⟨b', hb', hsub⟩ := addLocs_preserves (gs ++ bad :: rest) _ item _ _ hfind1
        exact ⟨b', hb', hsub item (mem_osAdd.2 (Or.inr rfl))⟩
      · exact ihh.2 g' hg''
  unfold CitationsMap.add
  rw [hloc]
  exact main goods m hgood hbad

/-- Witness for C10: location `top` (valid) then `to` (invalid raw-prefix
path); the call fails and the item is retained in the `top` bucket. -/
theorem C10_witness :
    ((["top".toList, "to".toList] : List PyStr) = ["top".toList] ++ "to".toList :: []
      ∧ (∀ g ∈ (["top".toList] : List PyStr),
          canonicalize g ∈ (CitationsMap.init ["top".toList, "top::sub".toList]).toc)
      ∧ canonicalize "to".toList ∉ (CitationsMap.init ["top".toList, "top::sub".toList]).toc)
    ∧ ((((CitationsMap.init ["top".toList, "top::sub".toList]).add
          ⟨"x1".toList, "T".toList, ["top".toList, "to".toList]⟩).2).isSome
      ∧ ∀ g ∈ (["top".toList] : List PyStr),
          ∃ b, assocFind (((CitationsMap.init ["top".toList, "top::sub".toList]).add
              ⟨"x1".toList, "T".toList, ["top".toList, "to".toList]⟩).1).d (canonicalize g)
            = some b ∧ (⟨"x1".toList, "T".toList, ["top".toList, "to".toList]⟩ : CitedItem) ∈ b) :=
  ⟨⟨rfl, by decide, by decide⟩,
    C10_partial_mutation (CitationsMap.init ["top".toList, "top::sub".toList])
      ⟨"x1".toList, "T".toList, ["top".toList, "to".toList]⟩
      ["top".toList] "to".toList [] rfl (by decide) (by decide)⟩

theorem prefix_extend (l : List PyStr) (c : Prop) [Decidable c] (a : List PyStr) :
    l <+: (if c then l ++ a else l) := by
  split
  · exact List.prefix_append _ _
  · exact List.prefix_refl _

theorem write_tex_mono (m : CitationsMap) (f : SecForest) : ∀ (depth : Nat) (st st' : TexSt),
    write_tex m depth st f = Except.ok st' →
    st.tex_body <+: st'.tex_body ∧ ∀ x ∈ st.used_keys, x ∈ st'.used_keys := by
  induction f with
  | nil =>
    intro depth st st' h
    simp only [write_tex, Except.ok.injEq] at h
    subst h
    exact ⟨List.prefix_refl _, fun x hx => hx⟩
  | consLeaf k rest ih =>
    intro depth st st' h
    simp only [write_tex] at h
    by_cases hu : k ∈ st.used_keys
    · rw [if_pos hu] at h
      exact ih depth st st' h
    · rw [if_neg hu] at h
      cases hdk : section_per_depth.get? depth with
      | none => rw [hdk] at h; cases h
      | some kind =>
        rw [hdk] at h
        simp only [] at h
        cases hget : m.get k false true with
        | error e => rw [hget] at h; cases h
        | ok cited_items =>
          rw [hget] at h
          simp only [] at h
          obtain ⟨hpre, hused⟩ := ih depth _ st' h
          constructor
          · refine List.IsPrefix.trans ?_ hpre
            refine List.IsPrefix.trans ?_ (List.prefix_append _ [endLine k])
            refine List.IsPrefix.trans ?_ (prefix_extend _ _ [placeholderLine k])
            refine List.IsPrefix.trans ?_ (List.prefix_append _ (cited_items.map (fun it => itemLine k it)))
            refine List.IsPrefix.trans ?_ (List.prefix_append _ [beginLine k])
            refine List.IsPrefix.trans ?_ (List.prefix_append _ [headerLine k kind])
            exact prefix_extend st.tex_body ((depth == 0) = true) [addtocLine k]
          · intro x hx
            exact hused x (List.mem_append_left _ hx)
  | consNode k children rest ihc ihr =>
    intro depth st st' h
    simp only [write_tex] at h
    by_cases hu : k ∈ st.used_keys
    · rw [if_pos hu] at h
      exact ihr depth st st' h
    · rw [if_neg hu] at h
      cases hdk : section_per_depth.get? depth with
      | none => rw [hdk] at h; cases h
      | some kind =>
        rw [hdk] at h
        simp only [] at h
        cases hget : m.get k false true with
        | error e => rw [hget] at h; cases h
        | ok cited_items =>
          rw [hget] at h
          simp only [] at h
          cases hch : write_tex m (depth + 1)
              ⟨(if depth == 0 then st.tex_body ++ [addtocLine k] else st.tex_body)
                ++ [headerLine k kind], st.used_keys⟩ children with
          | error e => rw [hch] at h; cases h
          | ok stc =>
            rw [hch] at h
            simp only [] at h
            obtain ⟨hpre2, hused2⟩ := ihc (depth + 1) _ stc hch
            obtain ⟨hpre, hused⟩ := ihr depth _ st' h
            constructor
            · refine List.IsPrefix.trans ?_ hpre
              refine List.IsPrefix.trans ?_ (List.prefix_append _ [endLine k])
              refine List.IsPrefix.trans ?_ (prefix_extend _ _ [placeholderLine k])
              refine List.IsPrefix.trans ?_ (List.prefix_append _ (cited_items.map (fun it => itemLine k it)))
              refine List.IsPrefix.trans ?_ (List.prefix_append _ [beginLine k])
              refine List.IsPrefix.trans ?_ hpre2
              refine List.IsPrefix.trans (prefix_extend st.tex_body ((depth == 0) = true) [addtocLine k]) ?_
              exact List.prefix_append _ [headerLine k kind]
            · intro x hx
              refine hused x (List.mem_append_left _ ?_)
              exact hused2 x hx

/-- C7 counterexample: in the taxonomy `{"top": {"sub": []}}` with no
items, the parent section `top` has a child and an empty bucket; the
rendered body contains a list-begin marker immediately followed by the
matching list-end marker — a malformed empty list construct. -/
theorem C7_counterexample :
    fill_tex_body (CitationsMap.from_json (DescEntries.consNode "top".toList
        (DescEntries.consLeaf "sub".toList DescEntries.nil) DescEntries.nil))
      = Except.ok
        [addtocLine "top".toList,
         headerLine "top".toList "section".toList,
         headerLine "top::sub".toList "subsection".toList,
         beginLine "top::sub".toList,
         placeholderLine "top::sub".toList,
         endLine "top::sub".toList,
         beginLine "top".toList,
         endLine "top".toList]
    ∧ hasAdjacentBeginEnd
        [addtocLine "top".toList,
         headerLine "top".toList "section".toList,
         headerLine "top::sub".toList "subsection".toList,
         beginLine "top::sub".toList,
         placeholderLine "top::sub".toList,
         endLine "top::sub".toList,
         beginLine "top".toList,
         endLine "top".toList] = true := by decide

/-- C7 (amended): a section with an empty bucket and no child sections
emits its heading immediately followed by a list block containing the
explicit placeholder entry (and that block persists into the final body);
but a section with child sections and an empty bucket emits, after its
children, a list-begin marker immediately followed by the matching
list-end marker whenever the children's last emitted line differs from the
section's heading line — the placeholder guard only fires when the
list-begin immediately follows the heading. -/
theorem C7_empty_section_rendering (m : CitationsMap) (depth : Nat) (st : TexSt)
    (k : PyStr) (kind : PyStr)
    (hu : k ∉ st.used_keys)
    (hkind : section_per_depth.get? depth = some kind)
    (hbucket : m.get k false true = Except.ok []) :
    (∀ rest : SecForest,
      write_tex m depth st (SecForest.consLeaf k rest)
        = write_tex m depth
            ⟨(if depth == 0 then st.tex_body ++ [addtocLine k] else st.tex_body)
              ++ [headerLine k kind, beginLine k, placeholderLine k, endLine k],
             st.used_keys ++ [k]⟩ rest
      ∧ ∀ st', write_tex m depth st (SecForest.consLeaf k rest) = Except.ok st' →
          [headerLine k kind, beginLine k, placeholderLine k, endLine k] <:+: st'.tex_body)
    ∧ (∀ (children rest : SecForest) (stc : TexSt),
      write_tex m (depth + 1)
          ⟨(if depth == 0 then st.tex_body ++ [addtocLine k] else st.tex_body)
            ++ [headerLine k kind], st.used_keys⟩ children = Except.ok stc →
      stc.tex_body.getLast? ≠ some (headerLine k kind) →
      write_tex m depth st (SecForest.consNode k children rest)
        = write_tex m depth ⟨stc.tex_body ++ [beginLine k, endLine k], stc.used_keys ++ [k]⟩ rest
      ∧ ∀ st', write_tex m depth st (SecForest.consNode k children rest) = Except.ok st' →
          [beginLine k, endLine k] <:+: st'.tex_body) := by
  constructor
  · intro rest
    have heq : write_tex m depth st (SecForest.consLeaf k rest)
        = write_tex m depth
            ⟨(if depth == 0 then st.tex_body ++ [addtocLine k] else st.tex_body)
              ++ [headerLine k kind, beginLine k, placeholderLine k, endLine k],
             st.used_keys ++ [k]⟩ rest := by
      simp only [write_tex, if_neg hu, hkind, hbucket, List.map_nil, List.append_nil,
        List.getLast?_concat, List.dropLast_concat]
      simp [List.append_assoc]
    refine ⟨heq, fun st' hst' => ?_⟩
    rw [heq] at hst'
    obtain ⟨hpre, _⟩ := write_tex_mono m rest depth _ st' hst'
    exact List.IsInfix.trans (List.IsSuffix.isInfix (List.suffix_append _ _))
      (List.IsPrefix.isInfix hpre)
  · intro children rest stc hch hne
    have heq : write_tex m depth st (SecForest.consNode k children rest)
        = write_tex m depth ⟨stc.tex_body ++ [beginLine k, endLine k], stc.used_keys ++ [k]⟩ rest := by
      simp only [write_tex, if_neg hu, hkind, hbucket, hch, List.map_nil, List.append_nil,
        List.getLast?_concat, List.dropLast_concat]
      rw [if_neg (fun hand => hne hand.2)]
      simp [List.append_assoc]
    refine ⟨heq, fun st' hst' => ?_⟩
    rw [heq] at hst'
    obtain ⟨hpre, _⟩ := write_tex_mono m rest depth _ st' hst'
    exact List.IsInfix.trans (List.IsSuffix.isInfix (List.suffix_append _ _))
      (List.IsPrefix.isInfix hpre)

/-- Witness for the amended C7: a single empty leaf section `solo` at
depth 0 emits heading, list-begin, placeholder, list-end; the block is an
infix of the final rendered state. -/
theorem C7_witness :
    ("solo".toList ∉ (⟨[], []⟩ : TexSt).used_keys
      ∧ section_per_depth.get? 0 = some "section".toList
      ∧ (CitationsMap.from_json (DescEntries.consLeaf "solo".toList DescEntries.nil)).get
          "solo".toList false true = Except.ok [])
    ∧ [headerLine "solo".toList "section".toList, beginLine "solo".toList,
        placeholderLine "solo".toList, endLine "solo".toList]
      <:+: [addtocLine "solo".toList, headerLine "solo".toList "section".toList,
            beginLine "solo".toList, placeholderLine "solo".toList, endLine "solo".toList] :=
  ⟨⟨by decide, by decide, by decide⟩,
    ((C7_empty_section_rendering
        (CitationsMap.from_json (DescEntries.consLeaf "solo".toList DescEntries.nil))
        0 ⟨[], []⟩ "solo".toList "section".toList (by decide) (by decide) (by decide)).1
      SecForest.nil).2
      ⟨[addtocLine "solo".toList, headerLine "solo".toList "section".toList,
        beginLine "solo".toList, placeholderLine "solo".toList, endLine "solo".toList],
       ["solo".toList]⟩ (by decide)⟩

/-- C8: the heading kind of an emitted section is the entry of the fixed
progression `section_per_depth` indexed by the section's depth in the
rendered structure; a node reached at a depth beyond the progression
(depth ≥ 5, exactly when the progression has no entry) makes rendering
fail with the depth subscript error before emitting any heading for it,
instead of truncating or wrapping the kind; rendering the six-level chain
taxonomy fails exactly this way. -/
theorem C8_heading_depth (m : CitationsMap) (depth : Nat) (st : TexSt) (f : SecForest)
    (k : PyStr) (hk : f.headKey? = some k) (hku : k ∉ st.used_keys) :
    (section_per_depth.get? depth = none →
      write_tex m depth st f = Except.error (PyErr.indexError depth))
    ∧ (∀ kind st', section_per_depth.get? depth = some kind →
        write_tex m depth st f = Except.ok st' → headerLine k kind ∈ st'.tex_body)
    ∧ (section_per_depth.get? depth = none ↔ 5 ≤ depth)
    ∧ fill_tex_body (CitationsMap.from_json deepChainDesc)
        = Except.error (PyErr.indexError 5) := by
  have hlen : (section_per_depth.get? depth = none ↔ 5 ≤ depth) := by
    rw [List.get?_eq_none]
    constructor
    · intro h
      exact h
    · intro h
      exact h
  refine ⟨?_, ?_, hlen, by decide⟩
  · intro hnone
    cases f with
    | nil => cases hk
    | consLeaf k' rest =>
      have hk2 : k = k' := by injection hk with h; exact h.symm
      subst hk2
      simp only [write_tex, if_neg hku, hnone]
    | consNode k' children rest =>
      have hk2 : k = k' := by injection hk with h; exact h.symm
      subst hk2
      simp only [write_tex, if_neg hku, hnone]
  · intro kind st' hkind hok
    cases f with
    | nil => cases hk
    | consLeaf k' rest =>
      have hk2 : k = k' := by injection hk with h; exact h.symm
      subst hk2
      simp only [write_tex, if_neg hku, hkind] at hok
      cases hget : m.get k false true with
      | error e => rw [hget] at hok; cases hok
      | ok cited_items =>
        rw [hget] at hok
        simp only [] at hok
        obtain ⟨hpre, _⟩ := write_tex_mono m rest depth _ st' hok
        refine hpre.subset ?_
        split_ifs <;> simp
    | consNode k' children rest =>
      have hk2 : k = k' := by injection hk with h; exact h.symm
      subst hk2
      simp only [write_tex, if_neg hku, hkind] at hok
      cases hget : m.get k false true with
      | error e => rw [hget] at hok; cases hok
      | ok cited_items =>
        rw [hget] at hok
        simp only [] at hok
        cases hch : write_tex m (depth + 1)
            ⟨(if depth == 0 then st.tex_body ++ [addtocLine k] else st.tex_body)
              ++ [headerLine k kind], st.used_keys⟩ children with
        | error e => rw [hch] at hok; cases hok
        | ok stc =>
          rw [hch] at hok
          simp only [] at hok
          obtain ⟨hprec, _⟩ := write_tex_mono m children (depth + 1) _ stc hch
          obtain ⟨hpre, _⟩ := write_tex_mono m rest depth _ st' hok
          refine hpre.subset ?_
          have hmem : headerLine k kind ∈ stc.tex_body := by
            refine hprec.subset ?_
            exact List.mem_append_right _ (List.mem_singleton.2 rfl)
          split_ifs <;> simp [hmem]

/-- Witness for C8: at depth 5 the progression has no entry and an
unprocessed node makes `write_tex` fail with the subscript error. -/
theorem C8_witness :
    ((SecForest.consLeaf "a".toList SecForest.nil).headKey? = some "a".toList
      ∧ "a".toList ∉ (⟨[], []⟩ : TexSt).used_keys
      ∧ section_per_depth.get? 5 = none)
    ∧ write_tex (CitationsMap.init []) 5 ⟨[], []⟩
        (SecForest.consLeaf "a".toList SecForest.nil)
      = Except.error (PyErr.indexError 5) :=
  ⟨⟨by decide, by decide, by decide⟩,
    (C8_heading_depth (CitationsMap.init []) 5 ⟨[], []⟩
      (SecForest.consLeaf "a".toList SecForest.nil) "a".toList
      (by decide) (by decide)).1 (by decide)⟩
